import Mathlib

/-!
Verification development for the diagram rasterization toolkit of
`generate_diagrams.py` (fleet-maintenance architecture document repository).

The Python toolkit is shallowly embedded here: pure helpers become Lean
functions over `ℤ`/`ℚ`/`ℝ`, canvases become total functions from integer
pixel coordinates to colors, and drawing operations become canvas
transformers or explicit command lists.  Python `int()` applied to a
nonnegative float is modelled as rational truncation toward zero (all
inputs exercised below keep the float arithmetic exact, so the rational
model agrees with the source).
-/

namespace GenDiagrams

/-! ## Color utilities (generate_diagrams.py, lines 22-30) -/

/-- Python `int(...)` on an exact numeric value: truncation toward zero. -/
def pytrunc (q : ℚ) : ℤ := if 0 ≤ q then ⌊q⌋ else ⌈q⌉

/-- An RGB triple as produced by `hex_to_rgb` and consumed by
`darken`/`lighten`; channels are Python ints. -/
abbrev RGB := ℤ × ℤ × ℤ

/-- Source: `def darken(rgb, factor=0.7): return tuple(int(c * factor) for c in rgb)`. -/
def darken (rgb : RGB) (factor : ℚ) : RGB :=
  (pytrunc ((rgb.1 : ℚ) * factor),
   pytrunc ((rgb.2.1 : ℚ) * factor),
   pytrunc ((rgb.2.2 : ℚ) * factor))

/-- Source: `def lighten(rgb, factor=1.3): return tuple(min(255, int(c * factor)) for c in rgb)`. -/
def lighten (rgb : RGB) (factor : ℚ) : RGB :=
  (min 255 (pytrunc ((rgb.1 : ℚ) * factor)),
   min 255 (pytrunc ((rgb.2.1 : ℚ) * factor)),
   min 255 (pytrunc ((rgb.2.2 : ℚ) * factor)))

/-! ## Gradient rows (generate_diagrams.py, `draw_gradient_rect` lines 49-54)

The fill loop runs `for y in range(y0, y1)` and paints the horizontal line
from `(x0 + radius, y)` to `(x1 - radius, y)` with the interpolated color
`int(top + (bottom - top) * ratio)`, `ratio = (y - y0) / max(1, y1 - y0)`. -/

/-- One interpolated channel of the gradient row at scanline `y`. -/
def gradChannel (t b y0 y1 y : ℤ) : ℤ :=
  pytrunc ((t : ℚ) + ((b : ℚ) - (t : ℚ)) *
    (((y : ℚ) - (y0 : ℚ)) / max 1 ((y1 : ℚ) - (y0 : ℚ))))

/-- The RGB color of the gradient scanline at row `y`. -/
def gradRowColor (top bottom : RGB) (y0 y1 y : ℤ) : RGB :=
  (gradChannel top.1 bottom.1 y0 y1 y,
   gradChannel top.2.1 bottom.2.1 y0 y1 y,
   gradChannel top.2.2 bottom.2.2 y0 y1 y)

/-! ## Hex color parsing (generate_diagrams.py, `hex_to_rgb` lines 22-24)

Source:
```
def hex_to_rgb(h):
    h = h.lstrip('#')
    return tuple(int(h[i:i+2], 16) for i in (0, 2, 4))
```
`str.lstrip('#')` removes every leading `'#'`; `h[i:i+2]` is clamped
slicing; `int(s, 16)` is CPython base-16 parsing (optional surrounding
whitespace, optional sign, optional `0x`/`0X` prefix, hex digits with
single underscores allowed between digits), raising `ValueError` (modelled
as `none`) otherwise. -/

/-- Whitespace characters stripped by Python `int()`. -/
def isSpaceChar (c : Char) : Bool :=
  (c.toNat == 32) || (c.toNat == 9) || (c.toNat == 10) ||
  (c.toNat == 13) || (c.toNat == 11) || (c.toNat == 12)

/-- Hexadecimal digit characters accepted by Python `int(_, 16)`. -/
def isHexDigitChar (c : Char) : Bool :=
  (Nat.ble 48 c.toNat && Nat.ble c.toNat 57) ||
  (Nat.ble 97 c.toNat && Nat.ble c.toNat 102) ||
  (Nat.ble 65 c.toNat && Nat.ble c.toNat 70)

/-- Numeric value of a hex digit character. -/
def hexVal (c : Char) : ℕ :=
  if c.toNat ≤ 57 then c.toNat - 48
  else if c.toNat ≤ 70 then c.toNat - 55
  else c.toNat - 87

/-- Hex digit run after the first digit: single underscores may separate
digits, nothing else is accepted. -/
def pyHexDigitsAux : ℕ → List Char → Option ℕ
  | acc, [] => some acc
  | acc, c :: rest =>
    if c = '_' then
      match rest with
      | [] => none
      | d :: rest2 =>
        if isHexDigitChar d then pyHexDigitsAux (16 * acc + hexVal d) rest2 else none
    else if isHexDigitChar c then pyHexDigitsAux (16 * acc + hexVal c) rest else none

/-- A nonempty hex digit run (first character must be a digit). -/
def pyHexMag : List Char → Option ℕ
  | [] => none
  | c :: rest => if isHexDigitChar c then pyHexDigitsAux (hexVal c) rest else none

/-- After a `0x`/`0X` marker one underscore may precede the digits. -/
def pyHexAfterOx : List Char → Option ℕ
  | '_' :: rest => pyHexMag rest
  | l => pyHexMag l

/-- Unsigned part of Python `int(_, 16)`: optional `0x`/`0X` marker, then digits. -/
def pyHexUnsigned (l : List Char) : Option ℕ :=
  match l with
  | c0 :: c1 :: rest =>
    if c0 = '0' ∧ (c1 = 'x' ∨ c1 = 'X') then pyHexAfterOx rest
    else pyHexMag (c0 :: c1 :: rest)
  | _ => pyHexMag l

/-- Strip leading and trailing whitespace. -/
def stripSpaces (l : List Char) : List Char :=
  ((l.dropWhile isSpaceChar).reverse.dropWhile isSpaceChar).reverse

/-- Python `int(s, 16)`: `none` models the `ValueError` raised on malformed
input. -/
def pyIntHex (l : List Char) : Option ℤ :=
  match stripSpaces l with
  | c :: rest =>
    if c = '+' then (pyHexUnsigned rest).map (fun n => (n : ℤ))
    else if c = '-' then (pyHexUnsigned rest).map (fun n => -(n : ℤ))
    else (pyHexUnsigned (c :: rest)).map (fun n => (n : ℤ))
  | [] => (pyHexUnsigned []).map (fun n => (n : ℤ))

/-- Python slice `l[i : i+n]` (clamped, never failing). -/
def pySlice (l : List Char) (i n : ℕ) : List Char := (l.drop i).take n

/-- The three two-character slices of the stripped string, each parsed in
base 16; the generator expression fails as soon as one slice fails. -/
def hex_to_rgb_stripped (h : List Char) : Option RGB :=
  (pyIntHex (pySlice h 0 2)).bind fun r =>
    (pyIntHex (pySlice h 2 2)).bind fun g =>
      (pyIntHex (pySlice h 4 2)).map fun b => (r, g, b)

/-- Source `hex_to_rgb`: strip every leading `'#'`, then parse the three
slices. -/
def hex_to_rgb (s : List Char) : Option RGB :=
  hex_to_rgb_stripped (s.dropWhile (fun c => c == '#'))

/-- The input shape named by the specification: exactly six hex digits
after an optional single leading `'#'`. -/
def sixHexForm (s : List Char) : Bool :=
  match s with
  | [] => false
  | c :: t =>
    if c = '#' then (t.length == 6) && t.all isHexDigitChar
    else ((c :: t).length == 6) && (c :: t).all isHexDigitChar

/-! ## Font resolution (generate_diagrams.py, `get_font` lines 11-19)

The filesystem probe `os.path.exists` is modelled as an environment
predicate `exists_fp`; `ImageFont.truetype(fp, size)` and
`ImageFont.load_default()` become the two constructors of `Font`. -/

/-- A resolved font handle. -/
inductive Font where
  | truetype (path : String) (size : ℕ)
  | load_default
  deriving DecidableEq

/-- The ordered candidate list from the source (`paths`), as a function of
the `bold` flag. -/
def font_paths (bold : Bool) : List String :=
  [if bold then "/usr/share/fonts/truetype/dejavu/DejaVuSans-Bold.ttf"
   else "/usr/share/fonts/truetype/dejavu/DejaVuSans.ttf",
   if bold then "/usr/share/fonts/truetype/liberation/LiberationSans-Bold.ttf"
   else "/usr/share/fonts/truetype/liberation/LiberationSans-Regular.ttf"]

/-- The `for fp in paths: if os.path.exists(fp): return ...` loop. -/
def get_font_go (exists_fp : String → Bool) (size : ℕ) : List String → Font
  | [] => Font.load_default
  | fp :: rest =>
    if exists_fp fp then Font.truetype fp size else get_font_go exists_fp size rest

/-- Source `get_font(size, bold=False)`. -/
def get_font (exists_fp : String → Bool) (size : ℕ) (bold : Bool) : Font :=
  get_font_go exists_fp size (font_paths bold)

/-! ## Arrow renderer (generate_diagrams.py, `draw_arrow` lines 74-87)

The Pillow draw handle is modelled by the list of drawing commands issued,
in order; coordinates are real numbers (`math.sqrt` is real square root). -/

/-- A drawing command issued to the Pillow draw handle; the color type is
opaque to `draw_arrow` and kept generic. -/
inductive DrawCmd (C : Type) where
  | line (p q : ℝ × ℝ) (color : C) (width : ℕ)
  | polygon (pts : List (ℝ × ℝ)) (color : C)

/-- Source `draw_arrow(draw, start, end, color, width=3, head_size=12)`:
the shaft line is issued first, unconditionally; then, unless the
displacement has length zero, the filled arrowhead triangle. -/
noncomputable def draw_arrow {C : Type} (start stop : ℝ × ℝ) (color : C)
    (width : ℕ) (head_size : ℝ) : List (DrawCmd C) :=
  let shaft := DrawCmd.line start stop color width
  let dx := stop.1 - start.1
  let dy := stop.2 - start.2
  let length := Real.sqrt (dx * dx + dy * dy)
  if length = 0 then [shaft]
  else
    let udx := dx / length
    let udy := dy / length
    let px := -udy
    let py := udx
    let lft : ℝ × ℝ :=
      (stop.1 - head_size * udx + head_size * 0.4 * px,
       stop.2 - head_size * udy + head_size * 0.4 * py)
    let rgt : ℝ × ℝ :=
      (stop.1 - head_size * udx - head_size * 0.4 * px,
       stop.2 - head_size * udy - head_size * 0.4 * py)
    [shaft, DrawCmd.polygon [stop, lft, rgt] color]

/-- The arrowhead vertex `end - head*u + 0.4*head*p` exactly as the
specification words it (`u` the unit displacement, `p = (-u.y, u.x)`). -/
noncomputable def spec_head_left (start stop : ℝ × ℝ) (head : ℝ) : ℝ × ℝ :=
  let L := Real.sqrt ((stop.1 - start.1) * (stop.1 - start.1) +
    (stop.2 - start.2) * (stop.2 - start.2))
  let ux := (stop.1 - start.1) / L
  let uy := (stop.2 - start.2) / L
  (stop.1 - head * ux + 0.4 * head * (-uy), stop.2 - head * uy + 0.4 * head * ux)

/-- The arrowhead vertex `end - head*u - 0.4*head*p` as the specification
words it. -/
noncomputable def spec_head_right (start stop : ℝ × ℝ) (head : ℝ) : ℝ × ℝ :=
  let L := Real.sqrt ((stop.1 - start.1) * (stop.1 - start.1) +
    (stop.2 - start.2) * (stop.2 - start.2))
  let ux := (stop.1 - start.1) / L
  let uy := (stop.2 - start.2) / L
  (stop.1 - head * ux - 0.4 * head * (-uy), stop.2 - head * uy - 0.4 * head * ux)

/-- Planar cross product, used to measure signed distance from a line. -/
def cross2 (v w : ℝ × ℝ) : ℝ := v.1 * w.2 - v.2 * w.1

/-- Distance from point `q` to the line through `a` and `b`. -/
noncomputable def dist_to_line (a b q : ℝ × ℝ) : ℝ :=
  |cross2 (b.1 - a.1, b.2 - a.2) (q.1 - a.1, q.2 - a.2)| /
    Real.sqrt ((b.1 - a.1) * (b.1 - a.1) + (b.2 - a.2) * (b.2 - a.2))

/-! ## Gradient fill loop as a canvas transformer (`draw_gradient_rect` lines 49-54)

An RGB canvas is a total function from integer pixel coordinates to RGB
(out-of-range coordinates are harmless in this model, as Pillow clips
silently).  `draw.line` between the two endpoints of a horizontal scanline
paints every pixel between them — in left-to-right or right-to-left order
alike — with the default one-pixel width. -/

/-- An RGB canvas. -/
abbrev CanvasRGB := ℤ × ℤ → RGB

/-- Pillow `draw.line([(xa, y), (xb, y)], fill=col)` (default width): the
pixels between the endpoints, endpoint order immaterial. -/
def draw_hline (xa xb y : ℤ) (col : RGB) (c : CanvasRGB) : CanvasRGB :=
  fun p => if p.2 = y ∧ min xa xb ≤ p.1 ∧ p.1 ≤ max xa xb then col else c p

/-- The gradient fill loop of `draw_gradient_rect`:
`for y in range(y0, y1): draw.line([(x0 + radius, y), (x1 - radius, y)], fill=...)`.
The outline stroke and the vestigial mask computation that follow it are
separate statements. -/
def draw_gradient_fill (c : CanvasRGB) (x0 y0 x1 y1 rad : ℤ)
    (top bottom : RGB) : CanvasRGB :=
  (List.range (y1 - y0).toNat).foldl
    (fun canvas (i : ℕ) =>
      draw_hline (x0 + rad) (x1 - rad) (y0 + (i : ℤ))
        (gradRowColor top bottom y0 y1 (y0 + (i : ℤ))) canvas) c

/-- An all-black canvas, convenient as a concrete initial state. -/
def black_canvas : CanvasRGB := fun _ => (0, 0, 0)

/-! ## Shadow compositor (generate_diagrams.py, `draw_shadow_rect` lines 33-43)

An RGBA canvas is again a total function on integer pixel coordinates.
The pipeline of the source: paint the rounded-rectangle silhouette —
offset by the single scalar `shadow_offset` in both axes, filled
`(0, 0, 0, 60)` — onto a transparent layer, Gaussian-blur that layer
(modelled, as Pillow implements it, by three successive box blurs of the
given radius, with integer averaging), then alpha-composite it over a
transparent layer and paste the result onto the image using the blurred
layer itself as the alpha mask. -/

/-- An RGBA pixel. -/
structure RGBA where
  r : ℕ
  g : ℕ
  b : ℕ
  a : ℕ
  deriving DecidableEq

/-- An RGBA layer or canvas. -/
abbrev Layer := ℤ → ℤ → RGBA

/-- The fully transparent pixel. -/
def transparent : RGBA := ⟨0, 0, 0, 0⟩

/-- Membership in the quarter-disc of a rounded corner. -/
def inCorner (cx cy rad x y : ℤ) : Prop :=
  (x - cx) ^ 2 + (y - cy) ^ 2 ≤ rad ^ 2

instance (cx cy rad x y : ℤ) : Decidable (inCorner cx cy rad x y) := by
  unfold inCorner; infer_instance

/-- The fill region of Pillow `rounded_rectangle(bbox, radius)`: the bbox
minus the four corner squares, plus the four quarter discs. -/
def inRoundedRect (x0 y0 x1 y1 rad x y : ℤ) : Prop :=
  (x0 ≤ x ∧ x ≤ x1 ∧ y0 ≤ y ∧ y ≤ y1) ∧
  ((x0 + rad ≤ x ∧ x ≤ x1 - rad) ∨ (y0 + rad ≤ y ∧ y ≤ y1 - rad) ∨
   inCorner (x0 + rad) (y0 + rad) rad x y ∨
   inCorner (x1 - rad) (y0 + rad) rad x y ∨
   inCorner (x0 + rad) (y1 - rad) rad x y ∨
   inCorner (x1 - rad) (y1 - rad) rad x y)

instance (x0 y0 x1 y1 rad x y : ℤ) : Decidable (inRoundedRect x0 y0 x1 y1 rad x y) := by
  unfold inRoundedRect; infer_instance

/-- The pre-blur shadow layer: the rounded rectangle at
`(x0 + so, y0 + so, x1 + so, y1 + so)` — the same scalar offset `so` added
to both coordinates — filled `(0, 0, 0, opacity)` on a transparent layer.
The source fixes `opacity = 60`. -/
def shadow_silhouette (x0 y0 x1 y1 rad so : ℤ) (opacity : ℕ) : Layer :=
  fun x y =>
    if inRoundedRect (x0 + so) (y0 + so) (x1 + so) (y1 + so) rad x y
    then ⟨0, 0, 0, opacity⟩ else transparent

/-- Window sum of a scalar field over the square of radius `rad`. -/
def boxSum (rad : ℕ) (f : ℤ → ℤ → ℕ) (x y : ℤ) : ℕ :=
  ∑ i ∈ Finset.Icc (-(rad : ℤ)) (rad : ℤ),
    ∑ j ∈ Finset.Icc (-(rad : ℤ)) (rad : ℤ), f (x + i) (y + j)

/-- One box blur pass (integer average over the window). -/
def boxBlur (rad : ℕ) (f : ℤ → ℤ → ℕ) : ℤ → ℤ → ℕ :=
  fun x y => boxSum rad f x y / (2 * rad + 1) ^ 2

/-- Three box-blur passes on one channel, the standard Gaussian
approximation Pillow uses. -/
def blurChannel (rad : ℕ) (f : ℤ → ℤ → ℕ) : ℤ → ℤ → ℕ :=
  boxBlur rad (boxBlur rad (boxBlur rad f))

/-- `shadow.filter(ImageFilter.GaussianBlur(blur))`, channelwise. -/
def gaussian_blur (rad : ℕ) (l : Layer) : Layer :=
  fun x y =>
    ⟨blurChannel rad (fun u v => (l u v).r) x y,
     blurChannel rad (fun u v => (l u v).g) x y,
     blurChannel rad (fun u v => (l u v).b) x y,
     blurChannel rad (fun u v => (l u v).a) x y⟩

/-- Pillow `Image.alpha_composite` on one pixel (integer arithmetic). -/
def alpha_over (dst src : RGBA) : RGBA :=
  let oa := src.a + dst.a * (255 - src.a) / 255
  if oa = 0 then transparent
  else
    ⟨(src.r * src.a + dst.r * dst.a * (255 - src.a) / 255) / oa,
     (src.g * src.a + dst.g * dst.a * (255 - src.a) / 255) / oa,
     (src.b * src.a + dst.b * dst.a * (255 - src.a) / 255) / oa, oa⟩

/-- `Image.alpha_composite` of one layer over another, pointwise. -/
def alpha_composite (dst src : Layer) : Layer :=
  fun x y => alpha_over (dst x y) (src x y)

/-- One channel of `img.paste(src, (0, 0), mask)`: blend by the mask's
alpha band. -/
def blend_mask (d s m : ℕ) : ℕ := (d * (255 - m) + s * m) / 255

/-- `img.paste(src, (0, 0), mask)` for an RGBA mask: the mask's alpha band
weights every channel. -/
def paste_masked (img src mask : Layer) : Layer :=
  fun x y =>
    let m := (mask x y).a
    ⟨blend_mask (img x y).r (src x y).r m,
     blend_mask (img x y).g (src x y).g m,
     blend_mask (img x y).b (src x y).b m,
     blend_mask (img x y).a (src x y).a m⟩

/-- Modelled from the spec: the `with_shadow` contract carries an opacity
parameter (`ShadowSpec.opacity`), which `draw_shadow_rect` in the source
hard-codes to `60`; this is the source's pipeline with that constant
generalized to the parameter `opacity`. -/
def draw_shadow_rect_gen (img : Layer) (x0 y0 x1 y1 rad so : ℤ)
    (blur : ℕ) (opacity : ℕ) : Layer :=
  let sh := gaussian_blur blur (shadow_silhouette x0 y0 x1 y1 rad so opacity)
  paste_masked img (alpha_composite (fun _ _ => transparent) sh) sh

/-- Source `draw_shadow_rect(img, bbox, radius, shadow_offset=6, blur=8)`:
the generalized pipeline at the hard-coded fill alpha `60`. -/
def draw_shadow_rect (img : Layer) (x0 y0 x1 y1 rad so : ℤ) (blur : ℕ) : Layer :=
  draw_shadow_rect_gen img x0 y0 x1 y1 rad so blur 60

/-! ## Greedy word wrap (modelled from the spec)

Modelled from the spec: the sources under `src/` contain no `wrap` or
`measure` function (text is drawn line by line at literal coordinates), so
the greedy wrapping algorithm of specification section 4.6 is modelled
from its words.  The font-dependent `measure` is an abstract width
function, a text is its sequence of words, a produced line is its list of
words, measured after joining with single spaces. -/

/-- Greedy accumulation: extend the current line while the joined line
still measures within `max_width`; on overflow commit it and start a new
line with the overflowing word. -/
def wrap_go (measure : String → ℕ) (max_width : ℕ) :
    List String → List String → List (List String)
  | cur, [] => [cur]
  | cur, w :: ws =>
    if measure (String.intercalate " " (cur ++ [w])) ≤ max_width
    then wrap_go measure max_width (cur ++ [w]) ws
    else cur :: wrap_go measure max_width [w] ws

/-- Modelled from the spec: `wrap(text, font, max_width)` over the word
sequence of `text`, with `font` abstracted into `measure`. -/
def wrap (measure : String → ℕ) (max_width : ℕ) : List String → List (List String)
  | [] => []
  | w :: ws => wrap_go measure max_width [w] ws

/-! ## Theorems -/

/-- Truncation of an integer value is that integer. -/
theorem pytrunc_intCast (n : ℤ) : pytrunc (n : ℚ) = n := by
  unfold pytrunc
  split
  · exact Int.floor_intCast n
  · exact Int.ceil_intCast n

/-- Truncation toward zero moves a value by less than one unit. -/
theorem pytrunc_abs_sub_le (q : ℚ) : |(pytrunc q : ℚ) - q| ≤ 1 := by
  unfold pytrunc
  split
  · rw [abs_le]
    constructor
    · have h := Int.sub_one_lt_floor q
      linarith
    · have h := Int.floor_le q
      linarith
  · rw [abs_le]
    constructor
    · have h := Int.le_ceil q
      linarith
    · have h := Int.ceil_lt_add_one q
      linarith

/-- Claim C8: with factor `1.0`, `darken` and `lighten` both return the
input color unchanged, for every RGB color with integer channels in
`[0, 255]`. -/
theorem darken_lighten_identity (c : RGB)
    (h0 : 0 ≤ c.1 ∧ 0 ≤ c.2.1 ∧ 0 ≤ c.2.2)
    (h255 : c.1 ≤ 255 ∧ c.2.1 ≤ 255 ∧ c.2.2 ≤ 255) :
    darken c 1 = c ∧ lighten c 1 = c := by
  obtain ⟨h1, h2, h3⟩ := h255
  unfold darken lighten
  rw [mul_one, mul_one, mul_one, pytrunc_intCast, pytrunc_intCast, pytrunc_intCast]
  refine ⟨rfl, ?_⟩
  rw [min_eq_right h1, min_eq_right h2, min_eq_right h3]

/-- Witness for C8 at the concrete color `(10, 128, 255)`. -/
theorem darken_lighten_identity_witness :
    darken (10, 128, 255) 1 = (10, 128, 255) ∧
    lighten (10, 128, 255) 1 = (10, 128, 255) :=
  darken_lighten_identity (10, 128, 255) (by decide) (by decide)

/-- The gradient scanline at row `y0` is exactly the top color (channel
level). -/
theorem gradChannel_top_row (t b y0 y1 : ℤ) : gradChannel t b y0 y1 y0 = t := by
  unfold gradChannel
  rw [sub_self, zero_div, mul_zero, add_zero, pytrunc_intCast]

/-- The gradient scanline at row `y1 - 1` is the interpolation at ratio
`(h-1)/h`, hence within `|b - t|/h + 1` of the bottom channel. -/
theorem gradChannel_bottom_row (t b y0 y1 : ℤ) (h : y0 < y1) :
    |(gradChannel t b y0 y1 (y1 - 1) : ℚ) - (b : ℚ)| ≤
      |(b : ℚ) - (t : ℚ)| / ((y1 : ℚ) - (y0 : ℚ)) + 1 := by
  have h1 : (1 : ℚ) ≤ (y1 : ℚ) - (y0 : ℚ) := by
    have h2 : (1 : ℤ) ≤ y1 - y0 := by omega
    exact_mod_cast h2
  have hpos : (0 : ℚ) < (y1 : ℚ) - (y0 : ℚ) := by linarith
  have hne : ((y1 : ℚ) - (y0 : ℚ)) ≠ 0 := ne_of_gt hpos
  unfold gradChannel
  rw [max_eq_right h1]
  set v : ℚ := (t : ℚ) + ((b : ℚ) - (t : ℚ)) *
    ((((y1 - 1 : ℤ) : ℚ) - (y0 : ℚ)) / ((y1 : ℚ) - (y0 : ℚ))) with hv
  have hvb : v - (b : ℚ) = ((t : ℚ) - (b : ℚ)) / ((y1 : ℚ) - (y0 : ℚ)) := by
    rw [hv]
    push_cast
    field_simp
    ring
  calc |(pytrunc v : ℚ) - (b : ℚ)|
      ≤ |(pytrunc v : ℚ) - v| + |v - (b : ℚ)| := abs_sub_le _ v _
    _ ≤ 1 + |v - (b : ℚ)| := by
        have h3 := pytrunc_abs_sub_le v
        linarith
    _ = |(b : ℚ) - (t : ℚ)| / ((y1 : ℚ) - (y0 : ℚ)) + 1 := by
        rw [hvb, abs_div, abs_of_pos hpos, abs_sub_comm]
        ring

/-- Claim C2 (amended): for `y1 > y0` the scanline at row `y0` equals the
top color exactly; the scanline at row `y1 - 1` is interpolated at ratio
`(h-1)/h` rather than `1`, so each channel is within
`|bottom - top| / (y1 - y0) + 1` of the bottom channel — one rounding unit
only when the height is at least the channel difference. -/
theorem gradient_boundary_rows (top bottom : RGB) (y0 y1 : ℤ) (h : y0 < y1) :
    gradRowColor top bottom y0 y1 y0 = top ∧
    (|(gradChannel top.1 bottom.1 y0 y1 (y1 - 1) : ℚ) - (bottom.1 : ℚ)| ≤
       |(bottom.1 : ℚ) - (top.1 : ℚ)| / ((y1 : ℚ) - (y0 : ℚ)) + 1) ∧
    (|(gradChannel top.2.1 bottom.2.1 y0 y1 (y1 - 1) : ℚ) - (bottom.2.1 : ℚ)| ≤
       |(bottom.2.1 : ℚ) - (top.2.1 : ℚ)| / ((y1 : ℚ) - (y0 : ℚ)) + 1) ∧
    (|(gradChannel top.2.2 bottom.2.2 y0 y1 (y1 - 1) : ℚ) - (bottom.2.2 : ℚ)| ≤
       |(bottom.2.2 : ℚ) - (top.2.2 : ℚ)| / ((y1 : ℚ) - (y0 : ℚ)) + 1) := by
  refine ⟨?_, gradChannel_bottom_row _ _ _ _ h, gradChannel_bottom_row _ _ _ _ h,
    gradChannel_bottom_row _ _ _ _ h⟩
  unfold gradRowColor
  rw [gradChannel_top_row, gradChannel_top_row, gradChannel_top_row]

/-- Witness for C2 at `top = (10, 20, 30)`, `bottom = (200, 100, 0)`,
`y0 = 0`, `y1 = 4`. -/
theorem gradient_boundary_rows_witness :
    gradRowColor (10, 20, 30) (200, 100, 0) 0 4 0 = (10, 20, 30) :=
  (gradient_boundary_rows (10, 20, 30) (200, 100, 0) 0 4 (by decide)).1

/-- Claim C2 counterexample: for the two-row gradient from `(0,0,0)` to
`(255,255,255)` over `y0 = 0`, `y1 = 2`, the scanline drawn at row
`y1 - 1 = 1` is `(127,127,127)`, which is 128 units away from the bottom
color — not within one rounding unit. -/
theorem gradient_bottom_row_drift :
    gradRowColor (0, 0, 0) (255, 255, 255) 0 2 1 = (127, 127, 127) ∧
    ¬ (|((gradRowColor (0, 0, 0) (255, 255, 255) 0 2 1).1 : ℚ) - (255 : ℚ)| ≤ 1) := by
  have h : gradRowColor (0, 0, 0) (255, 255, 255) 0 2 1 = (127, 127, 127) := by
    norm_num [gradRowColor, gradChannel, pytrunc]
  refine ⟨h, ?_⟩
  rw [h]
  norm_num

/-- A hex digit character's code point lies in one of the three digit
ranges. -/
theorem hex_char_ranges (c : Char) (h : isHexDigitChar c = true) :
    (48 ≤ c.toNat ∧ c.toNat ≤ 57) ∨ (97 ≤ c.toNat ∧ c.toNat ≤ 102) ∨
    (65 ≤ c.toNat ∧ c.toNat ≤ 70) := by
  simp only [isHexDigitChar, Bool.or_eq_true, Bool.and_eq_true, Nat.ble_eq] at h
  tauto

/-- A hex digit character differs from any character whose code point lies
outside the three digit ranges. -/
theorem hex_char_ne (c : Char) (h : isHexDigitChar c = true) (d : Char)
    (hd : d.toNat < 48 ∨ (57 < d.toNat ∧ d.toNat < 65) ∨
      (70 < d.toNat ∧ d.toNat < 97) ∨ 102 < d.toNat) : c ≠ d := by
  intro he
  subst he
  rcases hex_char_ranges c h with h1 | h1 | h1 <;> omega

/-- A hex digit character is not whitespace. -/
theorem hex_char_not_space (c : Char) (h : isHexDigitChar c = true) :
    isSpaceChar c = false := by
  have h1 := hex_char_ranges c h
  simp only [isSpaceChar, Bool.or_eq_false_iff, beq_eq_false_iff_ne, ne_eq]
  omega

/-- `stripSpaces` leaves a two-hex-digit string alone. -/
theorem stripSpaces_pair (x y : Char) (hx : isHexDigitChar x = true)
    (hy : isHexDigitChar y = true) : stripSpaces [x, y] = [x, y] := by
  unfold stripSpaces
  simp [List.dropWhile_cons, hex_char_not_space x hx, hex_char_not_space y hy]

/-- Python `int(_, 16)` succeeds on any two hex digit characters. -/
theorem pyIntHex_pair (x y : Char) (hx : isHexDigitChar x = true)
    (hy : isHexDigitChar y = true) :
    pyIntHex [x, y] = some ((16 * hexVal x + hexVal y : ℕ) : ℤ) := by
  have hxp : x ≠ '+' := hex_char_ne x hx '+' (by decide)
  have hxm : x ≠ '-' := hex_char_ne x hx '-' (by decide)
  have hyx : y ≠ 'x' := hex_char_ne y hy 'x' (by decide)
  have hyX : y ≠ 'X' := hex_char_ne y hy 'X' (by decide)
  have hyu : y ≠ '_' := hex_char_ne y hy '_' (by decide)
  unfold pyIntHex
  rw [stripSpaces_pair x y hx hy]
  dsimp only
  rw [if_neg hxp, if_neg hxm]
  unfold pyHexUnsigned
  dsimp only
  rw [if_neg (fun hcond => hcond.2.elim hyx hyX)]
  unfold pyHexMag
  dsimp only
  rw [if_pos hx]
  unfold pyHexDigitsAux
  dsimp only
  rw [if_neg hyu, if_pos hy]
  unfold pyHexDigitsAux
  rfl

/-- The three slices of a six-character string. -/
theorem pySlice_six (a b c d e f : Char) :
    pySlice [a, b, c, d, e, f] 0 2 = [a, b] ∧
    pySlice [a, b, c, d, e, f] 2 2 = [c, d] ∧
    pySlice [a, b, c, d, e, f] 4 2 = [e, f] := ⟨rfl, rfl, rfl⟩

/-- `hex_to_rgb_stripped` succeeds on six hex digit characters. -/
theorem hex_to_rgb_stripped_of_len6 (t : List Char) (hlen : t.length = 6)
    (hall : ∀ x ∈ t, isHexDigitChar x = true) :
    ∃ rgb, hex_to_rgb_stripped t = some rgb := by
  rcases t with - | ⟨a, t⟩; · simp at hlen
  rcases t with - | ⟨b, t⟩; · simp at hlen
  rcases t with - | ⟨c, t⟩; · simp at hlen
  rcases t with - | ⟨d, t⟩; · simp at hlen
  rcases t with - | ⟨e, t⟩; · simp at hlen
  rcases t with - | ⟨f, t⟩; · simp at hlen
  rcases t with - | ⟨g, t⟩
  · refine ⟨(((16 * hexVal a + hexVal b : ℕ) : ℤ),
      ((16 * hexVal c + hexVal d : ℕ) : ℤ),
      ((16 * hexVal e + hexVal f : ℕ) : ℤ)), ?_⟩
    unfold hex_to_rgb_stripped
    obtain ⟨s0, s2, s4⟩ := pySlice_six a b c d e f
    rw [s0, s2, s4,
      pyIntHex_pair a b (hall a (by simp)) (hall b (by simp)),
      pyIntHex_pair c d (hall c (by simp)) (hall d (by simp)),
      pyIntHex_pair e f (hall e (by simp)) (hall f (by simp))]
    rfl
  · simp at hlen

/-- Claim C3 (amended): `hex_to_rgb` returns a Color for every input
consisting of exactly six hex digits after an optional leading `'#'`; it
does not, however, reject every other input — extra trailing characters or
repeated `'#'`s are also accepted (see the counterexample), and the error
raised on genuinely unparsable slices is a plain `ValueError`. -/
theorem hex_to_rgb_accepts_six_hex (s : List Char) (h : sixHexForm s = true) :
    ∃ rgb, hex_to_rgb s = some rgb := by
  rcases s with - | ⟨c, t⟩
  · exact absurd h (by decide)
  · unfold sixHexForm at h
    dsimp only at h
    by_cases hc : c = '#'
    · rw [if_pos hc] at h
      subst hc
      simp only [Bool.and_eq_true, beq_iff_eq, List.all_eq_true] at h
      obtain ⟨hlen, hall⟩ := h
      unfold hex_to_rgb
      rcases t with - | ⟨a, t⟩
      · simp at hlen
      · have ha : (a == '#') = false :=
          beq_eq_false_iff_ne.mpr (hex_char_ne a (hall a (by simp)) '#' (by decide))
        simp only [List.dropWhile_cons, beq_self_eq_true, if_true, ha,
          Bool.false_eq_true, if_false]
        exact hex_to_rgb_stripped_of_len6 (a :: t) hlen hall
    · rw [if_neg hc] at h
      simp only [Bool.and_eq_true, beq_iff_eq, List.all_eq_true] at h
      obtain ⟨hlen, hall⟩ := h
      unfold hex_to_rgb
      have hcb : (c == '#') = false := beq_eq_false_iff_ne.mpr hc
      simp only [List.dropWhile_cons, hcb, Bool.false_eq_true, if_false]
      exact hex_to_rgb_stripped_of_len6 (c :: t) hlen hall

/-- Witness for C3 at the concrete input `"#2563EB"`. -/
theorem hex_to_rgb_accepts_six_hex_witness :
    sixHexForm (String.toList "#2563EB") = true ∧
    ∃ rgb, hex_to_rgb (String.toList "#2563EB") = some rgb :=
  ⟨by decide, hex_to_rgb_accepts_six_hex (String.toList "#2563EB") (by decide)⟩

/-- Claim C3 counterexample: `"AABBCCDD"` is not six hex digits after an
optional `'#'` (it has eight), yet `hex_to_rgb` accepts it and returns
`(170, 187, 204)`, ignoring the trailing `"DD"` — so the parser does not
fail on every input outside the specified form. -/
theorem hex_to_rgb_extra_digits_accepted :
    sixHexForm (String.toList "AABBCCDD") = false ∧
    hex_to_rgb (String.toList "AABBCCDD") = some (170, 187, 204) := by
  decide

/-- The probe loop returns the first path accepted by the filesystem
predicate, and the built-in default when none is. -/
theorem get_font_go_spec (exists_fp : String → Bool) (size : ℕ) (l : List String) :
    (∀ p, l.find? exists_fp = some p →
        get_font_go exists_fp size l = Font.truetype p size) ∧
    ((∀ p ∈ l, exists_fp p = false) →
        get_font_go exists_fp size l = Font.load_default) := by
  induction l with
  | nil =>
    refine ⟨fun p hp => ?_, fun _ => rfl⟩
    simp at hp
  | cons fp rest ih =>
    refine ⟨fun p hp => ?_, fun hnone => ?_⟩
    · by_cases hfp : exists_fp fp = true
      · rw [List.find?_cons_of_pos _ hfp] at hp
        injection hp with hp
        subst hp
        unfold get_font_go
        rw [if_pos hfp]
      · rw [List.find?_cons_of_neg _ (by simpa using hfp)] at hp
        unfold get_font_go
        rw [if_neg hfp]
        exact ih.1 p hp
    · unfold get_font_go
      have h1 : exists_fp fp = false := hnone fp (by simp)
      rw [if_neg (by simp [h1])]
      exact ih.2 fun p hp => hnone p (by simp [hp])

/-- Claim C7: `get_font` is total — it returns the font loaded from the
first candidate path that exists, and the built-in default glyph set when
no candidate path exists; no error is possible. -/
theorem get_font_resolution (exists_fp : String → Bool) (size : ℕ) (bold : Bool) :
    (∀ p, (font_paths bold).find? exists_fp = some p →
        get_font exists_fp size bold = Font.truetype p size) ∧
    ((∀ p ∈ font_paths bold, exists_fp p = false) →
        get_font exists_fp size bold = Font.load_default) :=
  get_font_go_spec exists_fp size (font_paths bold)

/-- Witness for C7: an empty filesystem falls back to the default glyph
set; a full filesystem resolves the first candidate path. -/
theorem get_font_resolution_witness :
    get_font (fun _ => false) 12 true = Font.load_default ∧
    get_font (fun _ => true) 12 false =
      Font.truetype ("/usr/share/fonts/truetype/dejavu/DejaVuSans.ttf") 12 :=
  ⟨(get_font_resolution (fun _ => false) 12 true).2 (by simp),
   (get_font_resolution (fun _ => true) 12 false).1 _ (by rfl)⟩

/-- A zero-displacement arrow issues the shaft line draw and then returns
before the arrowhead: `draw.line` runs before the length check. -/
theorem draw_arrow_self {C : Type} (p : ℝ × ℝ) (color : C) (width : ℕ)
    (head_size : ℝ) :
    draw_arrow p p color width head_size = [DrawCmd.line p p color width] := by
  simp [draw_arrow]

/-- Claim C1 (amended): a call with `start == end` raises no error and
draws no arrowhead, but the shaft line from `start` to `start` is drawn
unconditionally before the zero-length check, so the canvas is not left
untouched — the command list is the degenerate shaft line, not empty. -/
theorem draw_arrow_zero_length {C : Type} (p : ℝ × ℝ) (color : C) (width : ℕ)
    (head_size : ℝ) :
    draw_arrow p p color width head_size = [DrawCmd.line p p color width] :=
  draw_arrow_self p color width head_size

/-- Claim C1 counterexample: the degenerate call `draw_arrow((100, 50),
(100, 50), color, 2, 8)` does not draw nothing — it still issues the
width-2 shaft line draw at that point, so the command list is nonempty. -/
theorem draw_arrow_zero_length_not_noop :
    draw_arrow ((100 : ℝ), (50 : ℝ)) ((100 : ℝ), (50 : ℝ)) (0 : ℕ) 2 8 ≠
      ([] : List (DrawCmd ℕ)) := by
  rw [draw_arrow_self]
  simp

/-- Claim C4: for distinct endpoints, `draw_arrow` issues the shaft line
first and then the filled arrowhead triangle whose vertices are exactly
`{end, end - hs*u + 0.4*hs*p, end - hs*u - 0.4*hs*p}` with `u` the unit
displacement and `p = (-u.y, u.x)`; the two non-tip vertices are
equidistant from the line through `start` and `end`. -/
theorem draw_arrow_head {C : Type} (start stop : ℝ × ℝ) (color : C) (width : ℕ)
    (head_size : ℝ) (h : start ≠ stop) :
    draw_arrow start stop color width head_size =
      [DrawCmd.line start stop color width,
       DrawCmd.polygon
         [stop, spec_head_left start stop head_size,
          spec_head_right start stop head_size] color] ∧
    dist_to_line start stop (spec_head_left start stop head_size) =
      dist_to_line start stop (spec_head_right start stop head_size) := by
  have hd : stop.1 - start.1 ≠ 0 ∨ stop.2 - start.2 ≠ 0 := by
    by_contra hcon
    push_neg at hcon
    obtain ⟨h1, h2⟩ := hcon
    apply h
    rw [Prod.ext_iff]
    constructor <;> linarith
  have hsum : 0 < (stop.1 - start.1) * (stop.1 - start.1) +
      (stop.2 - start.2) * (stop.2 - start.2) := by
    rcases hd with h1 | h1
    · have h2 := mul_self_pos.mpr h1
      nlinarith [mul_self_nonneg (stop.2 - start.2)]
    · have h2 := mul_self_pos.mpr h1
      nlinarith [mul_self_nonneg (stop.1 - start.1)]
  have hL : Real.sqrt ((stop.1 - start.1) * (stop.1 - start.1) +
      (stop.2 - start.2) * (stop.2 - start.2)) ≠ 0 :=
    ne_of_gt (Real.sqrt_pos.mpr hsum)
  constructor
  · simp only [draw_arrow, spec_head_left, spec_head_right]
    rw [if_neg hL]
    simp only [List.cons.injEq, DrawCmd.polygon.injEq, Prod.mk.injEq, and_true,
      true_and]
    refine ⟨⟨?_, ?_⟩, ⟨?_, ?_⟩⟩ <;> ring
  · unfold dist_to_line
    congr 1
    unfold cross2 spec_head_left spec_head_right
    dsimp only
    conv_rhs => rw [← abs_neg]
    congr 1
    field_simp
    ring

/-- Witness for C4 at `start = (0, 0)`, `stop = (3, 4)`, head size 12. -/
theorem draw_arrow_head_witness :
    ((0 : ℝ), (0 : ℝ)) ≠ ((3 : ℝ), (4 : ℝ)) ∧
    dist_to_line ((0 : ℝ), (0 : ℝ)) ((3 : ℝ), (4 : ℝ))
        (spec_head_left ((0 : ℝ), (0 : ℝ)) ((3 : ℝ), (4 : ℝ)) 12) =
      dist_to_line ((0 : ℝ), (0 : ℝ)) ((3 : ℝ), (4 : ℝ))
        (spec_head_right ((0 : ℝ), (0 : ℝ)) ((3 : ℝ), (4 : ℝ)) 12) := by
  have hne : ((0 : ℝ), (0 : ℝ)) ≠ ((3 : ℝ), (4 : ℝ)) := by
    simp [Prod.ext_iff]
  exact ⟨hne, (draw_arrow_head ((0 : ℝ), (0 : ℝ)) ((3 : ℝ), (4 : ℝ)) (0 : ℕ) 3 12 hne).2⟩

/-- Greedy accumulation emits exactly the pending line followed by the
remaining words: nothing is dropped, duplicated or reordered. -/
theorem wrap_go_flatten (measure : String → ℕ) (max_width : ℕ) (ws : List String) :
    ∀ cur, (wrap_go measure max_width cur ws).flatten = cur ++ ws := by
  induction ws with
  | nil =>
    intro cur
    simp [wrap_go]
  | cons w ws ih =>
    intro cur
    unfold wrap_go
    split
    · rw [ih (cur ++ [w])]
      simp
    · simp only [List.flatten_cons]
      rw [ih [w]]
      simp

/-- Every line greedy accumulation emits is a single word or measures
within the width budget. -/
theorem wrap_go_width (measure : String → ℕ) (max_width : ℕ) (ws : List String) :
    ∀ cur, (cur.length = 1 ∨ measure (String.intercalate " " cur) ≤ max_width) →
      ∀ l ∈ wrap_go measure max_width cur ws,
        l.length = 1 ∨ measure (String.intercalate " " l) ≤ max_width := by
  induction ws with
  | nil =>
    intro cur hcur l hl
    simp only [wrap_go, List.mem_singleton] at hl
    subst hl
    exact hcur
  | cons w ws ih =>
    intro cur hcur l hl
    unfold wrap_go at hl
    split at hl
    case isTrue hle => exact ih (cur ++ [w]) (Or.inr hle) l hl
    case isFalse hle =>
      rcases List.mem_cons.mp hl with rfl | hl2
      · exact hcur
      · exact ih [w] (Or.inl rfl) l hl2

/-- Claim C5: greedy wrap commits no line that both holds more than one
word and measures over `max_width` (a single over-wide word sits alone on
its line), and concatenating the produced lines reproduces the original
word sequence exactly. -/
theorem wrap_sound (measure : String → ℕ) (max_width : ℕ) (words : List String) :
    (wrap measure max_width words).flatten = words ∧
    ∀ l ∈ wrap measure max_width words,
      l.length = 1 ∨ measure (String.intercalate " " l) ≤ max_width := by
  cases words with
  | nil => exact ⟨rfl, by simp [wrap]⟩
  | cons w ws =>
    exact ⟨wrap_go_flatten measure max_width ws [w],
      wrap_go_width measure max_width ws [w] (Or.inl rfl)⟩

/-- Witness for C5: wrapping three words at width 5 under the
string-length measure; the committed line `["ab", "cd"]` is within the
budget and the word sequence is preserved. -/
theorem wrap_sound_witness :
    (wrap String.length 5 ["ab", "cd", "efghij"]).flatten =
      ["ab", "cd", "efghij"] ∧
    (["ab", "cd"] ∈ wrap String.length 5 ["ab", "cd", "efghij"] ∧
      (["ab", "cd"].length = 1 ∨
        String.length (String.intercalate " " ["ab", "cd"]) ≤ 5)) :=
  ⟨(wrap_sound String.length 5 (["ab", "cd", "efghij"])).1,
   by decide,
   (wrap_sound String.length 5 (["ab", "cd", "efghij"])).2 (["ab", "cd"])
     (by decide)⟩

/-- The first `n` scanlines of the fill loop leave every pixel outside the
painted band untouched. -/
theorem draw_gradient_fill_aux_frame (x0 y0 x1 y1 rad : ℤ) (top bottom : RGB)
    (p : ℤ × ℤ)
    (hp : p.2 < y0 ∨ y1 ≤ p.2 ∨ p.1 < min (x0 + rad) (x1 - rad) ∨
      max (x0 + rad) (x1 - rad) < p.1) :
    ∀ n : ℕ, (n : ℤ) ≤ max (y1 - y0) 0 → ∀ c : CanvasRGB,
      (List.range n).foldl
        (fun canvas (i : ℕ) =>
          draw_hline (x0 + rad) (x1 - rad) (y0 + (i : ℤ))
            (gradRowColor top bottom y0 y1 (y0 + (i : ℤ))) canvas) c p = c p := by
  intro n
  induction n with
  | zero =>
    intro _ c
    rfl
  | succ n ih =>
    intro hn c
    rw [List.range_succ, List.foldl_append, List.foldl_cons, List.foldl_nil]
    unfold draw_hline
    rw [if_neg (by omega)]
    exact ih (by omega) c

/-- A pixel inside the painted band ends at its row's gradient color. -/
theorem draw_gradient_fill_aux_covers (x0 y0 x1 y1 rad : ℤ) (top bottom : RGB)
    (p : ℤ × ℤ)
    (hx1 : min (x0 + rad) (x1 - rad) ≤ p.1)
    (hx2 : p.1 ≤ max (x0 + rad) (x1 - rad)) :
    ∀ n : ℕ, ∀ c : CanvasRGB, y0 ≤ p.2 → p.2 < y0 + (n : ℤ) →
      (List.range n).foldl
        (fun canvas (i : ℕ) =>
          draw_hline (x0 + rad) (x1 - rad) (y0 + (i : ℤ))
            (gradRowColor top bottom y0 y1 (y0 + (i : ℤ))) canvas) c p =
        gradRowColor top bottom y0 y1 p.2 := by
  intro n
  induction n with
  | zero =>
    intro c h1 h2
    omega
  | succ n ih =>
    intro c h1 h2
    rw [List.range_succ, List.foldl_append, List.foldl_cons, List.foldl_nil]
    unfold draw_hline
    by_cases hy : p.2 = y0 + (n : ℤ)
    · rw [if_pos ⟨hy, hx1, hx2⟩, hy]
    · rw [if_neg (by omega)]
      exact ih c h1 (by omega)

/-- Claim C10 (amended): the fill loop writes only pixels with `y` in
`[y0, y1 - 1]` and `x` between `x0 + radius` and `x1 - radius` taken in
either order — when `radius ≤ (x1 - x0)/2` that band is
`[x0 + radius, x1 - radius]` as stated, but for larger radii the line
endpoints swap (Pillow paints the segment between them regardless of
order) and columns within radius of the bbox edges are written; every
pixel outside that band is left unchanged by the fill loop. -/
theorem gradient_fill_frame (c : CanvasRGB) (x0 y0 x1 y1 rad : ℤ)
    (top bottom : RGB) (p : ℤ × ℤ)
    (hp : p.2 < y0 ∨ y1 ≤ p.2 ∨ p.1 < min (x0 + rad) (x1 - rad) ∨
      max (x0 + rad) (x1 - rad) < p.1) :
    draw_gradient_fill c x0 y0 x1 y1 rad top bottom p = c p := by
  unfold draw_gradient_fill
  exact draw_gradient_fill_aux_frame x0 y0 x1 y1 rad top bottom p hp
    (y1 - y0).toNat (by omega) c

/-- Witness for C10 at a pixel below the box: `(5, 11)` with bbox
`(0, 0, 10, 10)`, radius 2. -/
theorem gradient_fill_frame_witness :
    ((11 : ℤ) < 0 ∨ (10 : ℤ) ≤ 11 ∨ (5 : ℤ) < min (0 + 2) (10 - 2) ∨
      max ((0 : ℤ) + 2) (10 - 2) < 5) ∧
    draw_gradient_fill black_canvas 0 0 10 10 2 (1, 2, 3) (4, 5, 6) (5, 11) =
      black_canvas (5, 11) :=
  ⟨by decide,
   gradient_fill_frame black_canvas 0 0 10 10 2 (1, 2, 3) (4, 5, 6) (5, 11)
     (by decide)⟩

/-- Claim C10 counterexample: with radius 8 on the width-10 bbox
`(0, 0, 10, 10)` the claimed band `[x0 + radius, x1 - radius] = [8, 2]` is
empty, yet the fill loop paints pixel `(2, 5)` — a column within radius of
the left edge — because the scanline runs from `x = 8` down to `x = 2`. -/
theorem gradient_fill_writes_outside_band :
    draw_gradient_fill black_canvas 0 0 10 10 8 (255, 255, 255) (255, 255, 255)
        (2, 5) = (255, 255, 255) ∧
    ¬ ((0 : ℤ) + 8 ≤ 2 ∧ (2 : ℤ) ≤ 10 - 8) ∧
    (255, 255, 255) ≠ black_canvas (2, 5) := by
  refine ⟨?_, by decide, by decide⟩
  have hcov := draw_gradient_fill_aux_covers 0 0 10 10 8 (255, 255, 255)
    (255, 255, 255) (2, 5) (by decide) (by decide) 10 black_canvas
    (by decide) (by decide)
  have heq : draw_gradient_fill black_canvas 0 0 10 10 8 (255, 255, 255)
      (255, 255, 255) (2, 5) =
      gradRowColor (255, 255, 255) (255, 255, 255) 0 10 5 := by
    unfold draw_gradient_fill
    exact hcov
  rw [heq]
  norm_num [gradRowColor, gradChannel, pytrunc]

/-- A box blur of the all-zero field is the all-zero field. -/
theorem boxBlur_zero_fun (rad : ℕ) :
    boxBlur rad (fun _ _ => 0) = fun _ _ => 0 := by
  funext x y
  unfold boxBlur boxSum
  simp

/-- Three box blurs of the all-zero field are the all-zero field. -/
theorem blurChannel_zero_fun (rad : ℕ) :
    blurChannel rad (fun _ _ => 0) = fun _ _ => 0 := by
  unfold blurChannel
  rw [boxBlur_zero_fun, boxBlur_zero_fun, boxBlur_zero_fun]

/-- At opacity zero the silhouette layer is fully transparent. -/
theorem shadow_silhouette_opacity_zero (x0 y0 x1 y1 rad so : ℤ) :
    shadow_silhouette x0 y0 x1 y1 rad so 0 = fun _ _ => transparent := by
  funext x y
  unfold shadow_silhouette
  split <;> rfl

/-- Blurring the fully transparent layer returns it unchanged. -/
theorem gaussian_blur_transparent (rad : ℕ) :
    gaussian_blur rad (fun _ _ => transparent) = fun _ _ => transparent := by
  funext x y
  show (⟨blurChannel rad (fun _ _ => 0) x y, blurChannel rad (fun _ _ => 0) x y,
    blurChannel rad (fun _ _ => 0) x y, blurChannel rad (fun _ _ => 0) x y⟩ :
    RGBA) = transparent
  rw [blurChannel_zero_fun]
  rfl

/-- Blending through a zero mask value keeps the destination channel. -/
theorem blend_mask_zero (d s : ℕ) : blend_mask d s 0 = d := by
  unfold blend_mask
  omega

/-- Pasting through a mask whose alpha band is zero everywhere leaves the
image untouched. -/
theorem paste_masked_zero_mask (img src mask : Layer)
    (hm : ∀ x y, (mask x y).a = 0) : paste_masked img src mask = img := by
  funext x y
  unfold paste_masked
  rw [hm]
  dsimp only
  rw [blend_mask_zero, blend_mask_zero, blend_mask_zero, blend_mask_zero]

/-- Claim C6: rendering a shape over a shadow of opacity 0 is
pixel-identical to rendering the shape with no shadow at all — the shadow
pass at opacity 0 is the identity on the canvas, for every shape drawing
function and every geometry. -/
theorem shadow_opacity_zero_identity (draw_shape : Layer → Layer) (img : Layer)
    (x0 y0 x1 y1 rad so : ℤ) (blur : ℕ) :
    draw_shape (draw_shadow_rect_gen img x0 y0 x1 y1 rad so blur 0) =
      draw_shape img := by
  have hgen : draw_shadow_rect_gen img x0 y0 x1 y1 rad so blur 0 = img := by
    unfold draw_shadow_rect_gen
    rw [shadow_silhouette_opacity_zero, gaussian_blur_transparent]
    exact paste_masked_zero_mask img _ _ (fun x y => rfl)
  rw [hgen]

/-- Corner membership is invariant under translating the corner center and
the point by the same offset. -/
theorem inCorner_shift (cx cy rad s x y : ℤ) :
    inCorner (cx + s) (cy + s) rad (x + s) (y + s) ↔ inCorner cx cy rad x y := by
  unfold inCorner
  have h1 : x + s - (cx + s) = x - cx := by ring
  have h2 : y + s - (cy + s) = y - cy := by ring
  rw [h1, h2]

/-- The rounded-rectangle region translated by the same scalar in both
axes contains the translated point exactly when the original region
contains the original point. -/
theorem inRoundedRect_shift (x0 y0 x1 y1 rad s x y : ℤ) :
    inRoundedRect (x0 + s) (y0 + s) (x1 + s) (y1 + s) rad (x + s) (y + s) ↔
      inRoundedRect x0 y0 x1 y1 rad x y := by
  unfold inRoundedRect
  have c1 : x0 + s + rad = (x0 + rad) + s := by ring
  have c2 : x1 + s - rad = (x1 - rad) + s := by ring
  have c3 : y0 + s + rad = (y0 + rad) + s := by ring
  have c4 : y1 + s - rad = (y1 - rad) + s := by ring
  rw [c1, c2, c3, c4, inCorner_shift, inCorner_shift, inCorner_shift,
    inCorner_shift]
  simp only [add_le_add_iff_right]

/-- Claim C9: the shadow silhouette of `draw_shadow_rect` is the un-offset
silhouette translated by the same scalar `shadow_offset` in both x and y
(there is no independent dx/dy pair), and its pre-blur fill alpha is `60`
at every pixel it covers — `0` elsewhere — regardless of all arguments;
`draw_shadow_rect` itself is the generalized pipeline fixed at opacity
`60`, so no caller can adjust it. -/
theorem shadow_silhouette_uniform_offset (img : Layer) (x0 y0 x1 y1 rad so x y : ℤ)
    (blur : ℕ) :
    shadow_silhouette x0 y0 x1 y1 rad so 60 (x + so) (y + so) =
      shadow_silhouette x0 y0 x1 y1 rad 0 60 x y ∧
    ((shadow_silhouette x0 y0 x1 y1 rad so 60 x y).a = 60 ∨
      (shadow_silhouette x0 y0 x1 y1 rad so 60 x y).a = 0) ∧
    draw_shadow_rect img x0 y0 x1 y1 rad so blur =
      draw_shadow_rect_gen img x0 y0 x1 y1 rad so blur 60 := by
  refine ⟨?_, ?_, rfl⟩
  · unfold shadow_silhouette
    simp only [add_zero]
    exact if_congr (inRoundedRect_shift x0 y0 x1 y1 rad so x y) rfl rfl
  · unfold shadow_silhouette
    split
    · left
      rfl
    · right
      rfl

end GenDiagrams
